import Mathlib

attribute [local semireducible] Rat.add Rat.mul Rat.sub Rat.inv

/-!
Shallow embedding of the genetic-algorithm library (src/lib.rs).

Modelling conventions:
* A random source (both the explicitly passed `rng: &mut R` and the ambient
  `thread_rng()`) is a deterministic stream of naturals with a position.
  `gen_range(0..n)` is modelled as `next % n` (it panics on an empty range),
  `gen_range(lo..hi)` on rationals maps a draw into the interval, and
  `gen_bool(p)` compares a 64-bit draw against `p * 2^64` and fails when
  `p` is outside `[0, 1]`, as `rand`'s `gen_bool` does.
* `f64` gene values and fitness values are modelled as rationals; a fitness
  slot that may hold a non-comparable value (NaN) is `Option ℚ` with `none`
  for NaN, so `partial_cmp` returning `None` is modelled faithfully.
* A Rust panic (index out of bounds, `unwrap` on `None`, `unimplemented!`,
  an invalid `gen_bool` probability, an out-of-range slice) is `Option.none`
  of the embedded operation.
-/

/-- A deterministic random source: a stream of naturals and a cursor. -/
structure Rng where
  stream : Nat → Nat
  pos : Nat

/-- Draw the next raw value and advance the cursor. -/
def Rng.next (r : Rng) : Nat × Rng :=
  (r.stream r.pos, ⟨r.stream, r.pos + 1⟩)

/-- A constant-stream random source, used for concrete runs. -/
def rngConst (c : Nat) : Rng :=
  ⟨fun _ => c, 0⟩

/-- `rng.gen_range(0..n)`: fails (panics) on an empty range, otherwise
returns a value `< n` and the advanced source. -/
def genRange (n : Nat) (r : Rng) : Option (Nat × Rng) :=
  if n = 0 then none
  else some (r.next.1 % n, r.next.2)

/-- `rng.gen_range(lo..hi)` on rationals (modelling the `f64` range draw):
maps a 32-bit draw into the interval. -/
def genRangeQ (lo hi : ℚ) (r : Rng) : ℚ × Rng :=
  (lo + (((r.next.1 % 2 ^ 32 : Nat) : ℚ) / 2 ^ 32) * (hi - lo), r.next.2)

/-- `rng.gen_bool(p)`: panics unless `0 ≤ p ≤ 1`, otherwise compares a
64-bit draw against `p * 2^64`. -/
def genBool (p : ℚ) (r : Rng) : Option (Bool × Rng) :=
  if 0 ≤ p ∧ p ≤ 1 then
    some (decide (((r.next.1 % 2 ^ 64 : Nat) : ℚ) < p * 2 ^ 64), r.next.2)
  else none

/-- Comparison of two rationals, as `partial_cmp` orders two comparable
`f64` values. -/
def cmpQ (x y : ℚ) : Ordering :=
  if x < y then Ordering.lt
  else if y < x then Ordering.gt
  else Ordering.eq

/-- `a.partial_cmp(&b)` on possibly-NaN values: `none` (NaN) on either side
makes the comparison undefined. -/
def pcmp (a b : Option ℚ) : Option Ordering :=
  match a, b with
  | some x, some y => some (cmpQ x y)
  | _, _ => none

/-- The comparator used inside `TournamentSelection::select`:
`fitness_values[a].partial_cmp(&fitness_values[b]).unwrap()`.  An index out
of bounds of `fitness_values`, or an undefined comparison, is a panic,
modelled as `none`. -/
def fvCmp (fv : List (Option ℚ)) (a b : Nat) : Option Ordering :=
  match fv.get? a, fv.get? b with
  | some x, some y => pcmp x y
  | _, _ => none

/-- `Iterator::max_by` fold: the accumulator is kept only when it compares
strictly greater than the next element, so equal maxima resolve to the
last one.  A comparator failure (panic) aborts the whole fold. -/
def maxByLastGo {α : Type} (cmp : α → α → Option Ordering) : α → List α → Option α
  | acc, [] => some acc
  | acc, x :: xs =>
    match cmp acc x with
    | none => none
    | some Ordering.gt => maxByLastGo cmp acc xs
    | some _ => maxByLastGo cmp x xs

/-- `Iterator::max_by` with a fallible comparator: `none` on an empty
iterator (then `unwrap` panics in the source) or on a comparator failure. -/
def maxByLast {α : Type} (cmp : α → α → Option Ordering) : List α → Option α
  | [] => none
  | x :: xs => maxByLastGo cmp x xs

/-- `TournamentSelection { tournament_size }`. -/
structure TournamentSelection where
  tournament_size : Nat

/-- The inner draw of one tournament: `tournament_size` indices drawn by
`rng.gen_range(0..population.len())`, in draw order. -/
def drawTournament : Nat → Nat → Rng → Option (List Nat × Rng)
  | 0, _, r => some ([], r)
  | t + 1, n, r =>
    match genRange n r with
    | none => none
    | some (i, r2) =>
      match drawTournament t n r2 with
      | none => none
      | some (rest, r3) => some (i :: rest, r3)

/-- The `(0..population.len()).map(..)` loop of `select`, one output slot at
a time: draw a tournament, pick the winner by `max_by`, clone it. -/
def selectLoop {α : Type} (ts : Nat) (pop : List α) (fv : List (Option ℚ)) :
    Nat → Rng → Option (List α × Rng)
  | 0, r => some ([], r)
  | k + 1, r =>
    match drawTournament ts pop.length r with
    | none => none
    | some (t, r2) =>
      match maxByLast (fvCmp fv) t with
      | none => none
      | some idx =>
        match pop.get? idx with
        | none => none
        | some winner =>
          match selectLoop ts pop fv k r2 with
          | none => none
          | some (rest, r3) => some (winner :: rest, r3)

/-- `TournamentSelection::select`: one winner per population slot. -/
def TournamentSelection.select {α : Type} (st : TournamentSelection)
    (population : List α) (fitness_values : List (Option ℚ)) (r : Rng) :
    Option (List α × Rng) :=
  selectLoop st.tournament_size population fitness_values population.length r

/-- `MyIndividual { genes: Vec<f64> }`, genes modelled as rationals. -/
structure MyIndividual where
  genes : List ℚ
  deriving DecidableEq

/-- `MyIndividual::fitness`: the sum of the genes. -/
def MyIndividual.fitness (self : MyIndividual) : ℚ :=
  self.genes.sum

/-- `MyIndividual::crossover`: split both parents at `mid = self.len / 2`.
The slice `other.genes[mid..]` (and `other.genes[..mid]`) panics when
`mid > other.genes.len()`, hence the guard. -/
def MyIndividual.crossover (self other : MyIndividual) :
    Option (MyIndividual × MyIndividual) :=
  let mid := self.genes.length / 2
  if mid ≤ other.genes.length then
    some (⟨self.genes.take mid ++ other.genes.drop mid⟩,
          ⟨other.genes.take mid ++ self.genes.drop mid⟩)
  else none

/-- `MyIndividual::mutate`: chooses one gene position using the ambient
`thread_rng()` (no draw happens when `genes` is empty) and perturbs it by a
`thread_rng()` draw from the fixed interval `-0.1..0.1`. -/
def MyIndividual.mutate (self : MyIndividual) (amb : Rng) : MyIndividual × Rng :=
  match genRange self.genes.length amb with
  | none => (self, amb)
  | some (i, a1) =>
    let d := genRangeQ (-1/10) (1/10) a1
    (⟨self.genes.set i (self.genes.getD i 0 + d.1)⟩, d.2)

/-- `struct SinglePointCrossover;` (unit struct). -/
structure SinglePointCrossover where

/-- `SinglePointCrossover::crossover`: calls the candidate's `crossover`
twice (it is pure) and returns the two children as a vector. -/
def SinglePointCrossover.crossover (_op : SinglePointCrossover)
    (parent1 parent2 : MyIndividual) : Option (List MyIndividual) :=
  match parent1.crossover parent2, parent1.crossover parent2 with
  | some c, some d => some [c.1, d.2]
  | _, _ => none

/-- `GaussianMutation { mutation_rate, mutation_strength }`. -/
structure GaussianMutation where
  mutation_rate : ℚ
  mutation_strength : ℚ

/-- `GaussianMutation::mutate`: a Bernoulli trial on the ambient
`thread_rng()` gates the candidate's own `mutate`.  The explicitly passed
source `r` is received but never consulted (the `_rng` parameter of the
source). -/
def GaussianMutation.mutate (op : GaussianMutation) (individual : MyIndividual)
    (_r : Rng) (amb : Rng) : Option (MyIndividual × Rng) :=
  match genBool op.mutation_rate amb with
  | none => none
  | some (true, a1) => some (individual.mutate a1)
  | some (false, a1) => some (individual, a1)

/-- `GeneticAlgorithm` with the reference operators. -/
structure GeneticAlgorithm where
  population_size : Nat
  selection_strategy : TournamentSelection
  crossover_operator : SinglePointCrossover
  mutation_operator : GaussianMutation

/-- The recombining step of `evolve`: `parents.par_chunks(2).flat_map(..)`,
chunks in order; a full pair goes through the crossover operator, a final
unpaired parent is cloned through. -/
def recombine (c : SinglePointCrossover) : List MyIndividual → Option (List MyIndividual)
  | [] => some []
  | [p] => some [p]
  | p1 :: p2 :: rest =>
    match c.crossover p1 p2, recombine c rest with
    | some cs, some os => some (cs ++ os)
    | _, _ => none

/-- The mutating step of `evolve`: apply the mutation operator to every
offspring in order, threading the ambient source. -/
def mutateAll (m : GaussianMutation) (r : Rng) :
    List MyIndividual → Rng → Option (List MyIndividual × Rng)
  | [], amb => some ([], amb)
  | ind :: rest, amb =>
    match m.mutate ind r amb with
    | none => none
    | some (ind2, amb2) =>
      match mutateAll m r rest amb2 with
      | none => none
      | some (rest2, amb3) => some (ind2 :: rest2, amb3)

/-- The generational loop of `evolve`: evaluate fitness, select, recombine,
mutate, replace. -/
def evolveLoop (ga : GeneticAlgorithm) :
    Nat → List MyIndividual → Rng → Rng → Option (List MyIndividual × Rng × Rng)
  | 0, pop, r, amb => some (pop, r, amb)
  | g + 1, pop, r, amb =>
    let fitness_values := pop.map (fun ind => some ind.fitness)
    match ga.selection_strategy.select pop fitness_values r with
    | none => none
    | some (parents, r2) =>
      match recombine ga.crossover_operator parents with
      | none => none
      | some offspring =>
        match mutateAll ga.mutation_operator r2 offspring amb with
        | none => none
        | some (pop2, amb2) => evolveLoop ga g pop2 r2 amb2

/-- `GeneticAlgorithm::evolve`.  With `initial_population = None` the engine
builds the population by calling `generate_individual` `population_size`
times; `generate_individual` is `unimplemented!()` (a panic), so any such
call fails — but with `population_size = 0` it is never called and the
empty population proceeds. -/
def GeneticAlgorithm.evolve (ga : GeneticAlgorithm) (generations : Nat)
    (r : Rng) (amb : Rng) (initial_population : Option (List MyIndividual)) :
    Option (List MyIndividual × Rng × Rng) :=
  match initial_population with
  | some pop => evolveLoop ga generations pop r amb
  | none =>
    if ga.population_size = 0 then evolveLoop ga generations [] r amb
    else none

/-!
### Helper lemmas
-/

theorem cmpQ_eq_gt_of_lt {x y : ℚ} (h : y < x) : cmpQ x y = Ordering.gt := by
  unfold cmpQ
  rw [if_neg (not_lt_of_gt h), if_pos h]

theorem cmpQ_ne_gt_of_le {x y : ℚ} (h : x ≤ y) : cmpQ x y ≠ Ordering.gt := by
  unfold cmpQ
  rcases lt_or_eq_of_le h with h1 | h1
  · rw [if_pos h1]; decide
  · subst h1; rw [if_neg (lt_irrefl x), if_neg (lt_irrefl x)]; decide

theorem fvCmp_eq {fv : List (Option ℚ)} {a b : Nat} {x y : ℚ}
    (ha : fv.get? a = some (some x)) (hb : fv.get? b = some (some y)) :
    fvCmp fv a b = some (cmpQ x y) := by
  unfold fvCmp
  rw [ha, hb]
  rfl

theorem fvCmp_none_left {fv : List (Option ℚ)} {a : Nat} (b : Nat)
    (ha : fv.get? a = some none) : fvCmp fv a b = none := by
  unfold fvCmp
  rw [ha]
  cases hb : fv.get? b with
  | none => rfl
  | some o => cases o <;> rfl

theorem fvCmp_none_right {fv : List (Option ℚ)} (a : Nat) {b : Nat}
    (hb : fv.get? b = some none) : fvCmp fv a b = none := by
  unfold fvCmp
  rw [hb]
  cases ha : fv.get? a with
  | none => rfl
  | some o => cases o <;> rfl

theorem maxByLastGo_ignores_smaller {fv : List (Option ℚ)} (key : Nat → ℚ) :
    ∀ (xs : List Nat) (acc : Nat) (ka : ℚ), fv.get? acc = some (some ka) →
      (∀ i ∈ xs, fv.get? i = some (some (key i)) ∧ key i < ka) →
      maxByLastGo (fvCmp fv) acc xs = some acc
  | [], _, _, _, _ => rfl
  | x :: xs, acc, ka, hacc, hxs => by
    have hx := hxs x (List.mem_cons_self x xs)
    rw [maxByLastGo, fvCmp_eq hacc hx.1, cmpQ_eq_gt_of_lt hx.2]
    exact maxByLastGo_ignores_smaller key xs acc ka hacc
      (fun i hi => hxs i (List.mem_cons_of_mem x hi))

theorem maxByLastGo_last_max {fv : List (Option ℚ)} (key : Nat → ℚ) (m : Nat) (km : ℚ)
    (hm : fv.get? m = some (some km)) :
    ∀ (t1 : List Nat) (acc : Nat) (ka : ℚ) (t2 : List Nat),
      fv.get? acc = some (some ka) → ka ≤ km →
      (∀ i ∈ t1, fv.get? i = some (some (key i)) ∧ key i ≤ km) →
      (∀ i ∈ t2, fv.get? i = some (some (key i)) ∧ key i < km) →
      maxByLastGo (fvCmp fv) acc (t1 ++ m :: t2) = some m
  | [], acc, ka, t2, hacc, hle, _, ht2 => by
    rw [List.nil_append, maxByLastGo, fvCmp_eq hacc hm]
    cases hc : cmpQ ka km with
    | gt => exact absurd hc (cmpQ_ne_gt_of_le hle)
    | lt => exact maxByLastGo_ignores_smaller key t2 m km hm ht2
    | eq => exact maxByLastGo_ignores_smaller key t2 m km hm ht2
  | x :: t1, acc, ka, t2, hacc, hle, ht1, ht2 => by
    have hx := ht1 x (List.mem_cons_self x t1)
    have ht1' := fun i hi => ht1 i (List.mem_cons_of_mem x hi)
    rw [List.cons_append, maxByLastGo, fvCmp_eq hacc hx.1]
    cases hc : cmpQ ka (key x) with
    | gt => exact maxByLastGo_last_max key m km hm t1 acc ka t2 hacc hle ht1' ht2
    | lt => exact maxByLastGo_last_max key m km hm t1 x (key x) t2 hx.1 hx.2 ht1' ht2
    | eq => exact maxByLastGo_last_max key m km hm t1 x (key x) t2 hx.1 hx.2 ht1' ht2

/-- C3: In `TournamentSelection::select`, when several drawn indices share the
maximal fitness, the winner determined by the `max_by` fold over the draw is
the index at the *last* maximal position in draw order: any index drawn after
position `k` of `m` has strictly smaller fitness, indices before may tie, and
the fold returns `m`. -/
theorem tournament_selects_last_maximal_index (fv : List (Option ℚ)) (key : Nat → ℚ)
    (t1 t2 : List Nat) (m : Nat)
    (hcomp : ∀ i ∈ t1 ++ m :: t2, fv.get? i = some (some (key i)))
    (hmax : ∀ i ∈ t1, key i ≤ key m)
    (hafter : ∀ i ∈ t2, key i < key m) :
    maxByLast (fvCmp fv) (t1 ++ m :: t2) = some m := by
  have hm : fv.get? m = some (some (key m)) :=
    hcomp m (List.mem_append_right t1 (List.mem_cons_self m t2))
  cases t1 with
  | nil =>
    show maxByLastGo (fvCmp fv) m t2 = some m
    exact maxByLastGo_ignores_smaller key t2 m (key m) hm
      (fun i hi => ⟨hcomp i (by simp [hi]), hafter i hi⟩)
  | cons x t1 =>
    show maxByLastGo (fvCmp fv) x (t1 ++ m :: t2) = some m
    exact maxByLastGo_last_max key m (key m) hm t1 x (key x)
      t2 (hcomp x (by simp)) (hmax x (by simp))
      (fun i hi => ⟨hcomp i (by simp [hi]), hmax i (by simp [hi])⟩)
      (fun i hi => ⟨hcomp i (by simp [hi]), hafter i hi⟩)

theorem tournament_selects_last_maximal_index_witness :
    maxByLast (fvCmp [some (5 : ℚ), some 5]) [0, 1] = some 1 :=
  tournament_selects_last_maximal_index [some 5, some 5] (fun _ => 5) [0] [] 1
    (by decide) (by decide) (by decide)

theorem maxByLastGo_nan_in_tail {fv : List (Option ℚ)} :
    ∀ (xs : List Nat) (acc i : Nat), i ∈ xs → fv.get? i = some none →
      maxByLastGo (fvCmp fv) acc xs = none
  | x :: xs, acc, i, hi, hnan => by
    rcases List.mem_cons.mp hi with rfl | hi2
    · rw [maxByLastGo, fvCmp_none_right acc hnan]
    · rw [maxByLastGo]
      cases hc : fvCmp fv acc x with
      | none => rfl
      | some o =>
        cases o with
        | gt => exact maxByLastGo_nan_in_tail xs acc i hi2 hnan
        | lt => exact maxByLastGo_nan_in_tail xs x i hi2 hnan
        | eq => exact maxByLastGo_nan_in_tail xs x i hi2 hnan

/-- C6: when a drawn tournament of size at least two contains an index whose
fitness is not comparable (NaN, `fv.get? i = some none`), the `max_by`
winner determination of `TournamentSelection::select` fails — the
`partial_cmp(..).unwrap()` comparator panics — instead of silently picking a
winner.  (With at least two participants, the NaN participant is always
reached by some comparison, directly or after an earlier abort.) -/
theorem incomparable_fitness_comparison_fails (fv : List (Option ℚ))
    (t : List Nat) (i : Nat) (hi : i ∈ t) (hnan : fv.get? i = some none)
    (hlen : 2 ≤ t.length) : maxByLast (fvCmp fv) t = none := by
  cases t with
  | nil => cases hi
  | cons a rest =>
    show maxByLastGo (fvCmp fv) a rest = none
    cases rest with
    | nil => simp at hlen
    | cons b rest2 =>
      rcases List.mem_cons.mp hi with rfl | hi2
      · rw [maxByLastGo, fvCmp_none_left b hnan]
      · exact maxByLastGo_nan_in_tail (b :: rest2) a i hi2 hnan

theorem incomparable_fitness_comparison_fails_witness :
    maxByLast (fvCmp [some (1 : ℚ), none]) [0, 1] = none :=
  incomparable_fitness_comparison_fails [some 1, none] [0, 1] 1 (by decide)
    (by decide) (by decide)

theorem crossover_spec (c : SinglePointCrossover) (p1 p2 : MyIndividual) (L : Nat)
    (h1 : p1.genes.length = L) (h2 : p2.genes.length = L) :
    c.crossover p1 p2 = some
      [⟨p1.genes.take (L / 2) ++ p2.genes.drop (L / 2)⟩,
       ⟨p2.genes.take (L / 2) ++ p1.genes.drop (L / 2)⟩] := by
  have hmid : p1.genes.length / 2 ≤ p2.genes.length := by
    rw [h1, h2]; exact Nat.div_le_self L 2
  unfold SinglePointCrossover.crossover MyIndividual.crossover
  rw [if_pos hmid, h1]

theorem crossover_child_length (gs1 gs2 : List ℚ) (L : Nat) (h1 : gs1.length = L)
    (h2 : gs2.length = L) : (gs1.take (L / 2) ++ gs2.drop (L / 2)).length = L := by
  simp only [List.length_append, List.length_take, List.length_drop, h1, h2]
  omega

/-- C7: single-point crossover on two parents of gene-length `L` returns
exactly two children of length `L`; the first child takes genes `0..L/2`
from the first parent and `L/2..L` from the second, the second child the
complementary split. -/
theorem single_point_crossover_arity_split (p1 p2 : MyIndividual) (L : Nat)
    (h1 : p1.genes.length = L) (h2 : p2.genes.length = L) :
    ∃ c1 c2 : MyIndividual,
      SinglePointCrossover.crossover ⟨⟩ p1 p2 = some [c1, c2] ∧
      c1.genes = p1.genes.take (L / 2) ++ p2.genes.drop (L / 2) ∧
      c2.genes = p2.genes.take (L / 2) ++ p1.genes.drop (L / 2) ∧
      c1.genes.length = L ∧ c2.genes.length = L :=
  ⟨_, _, crossover_spec ⟨⟩ p1 p2 L h1 h2, rfl, rfl,
    crossover_child_length _ _ L h1 h2, crossover_child_length _ _ L h2 h1⟩

theorem single_point_crossover_arity_split_witness :
    ∃ c1 c2 : MyIndividual,
      SinglePointCrossover.crossover ⟨⟩ ⟨[1, 2]⟩ ⟨[3, 4]⟩ = some [c1, c2] ∧
      c1.genes = [(1 : ℚ), 2].take (2 / 2) ++ [(3 : ℚ), 4].drop (2 / 2) ∧
      c2.genes = [(3 : ℚ), 4].take (2 / 2) ++ [(1 : ℚ), 2].drop (2 / 2) ∧
      c1.genes.length = 2 ∧ c2.genes.length = 2 :=
  single_point_crossover_arity_split ⟨[1, 2]⟩ ⟨[3, 4]⟩ 2 (by decide) (by decide)

theorem recombine_append_single (c : SinglePointCrossover) :
    ∀ (ps : List MyIndividual) (p : MyIndividual), ps.length % 2 = 0 →
      recombine c (ps ++ [p]) = (recombine c ps).map (fun os => os ++ [p])
  | [], _, _ => rfl
  | [_], _, h => by simp at h
  | x :: y :: rest, p, h => by
    have hr : rest.length % 2 = 0 := by
      simp only [List.length_cons] at h
      omega
    have ih := recombine_append_single c rest p hr
    show recombine c (x :: y :: (rest ++ [p])) = _
    rw [recombine, ih, recombine]
    cases c.crossover x y <;> cases recombine c rest <;> simp

/-- C4: in the recombining step of `evolve`, with an odd number of parents
(an even-length prefix `ps` plus one final parent `p`), the offspring are
the recombination of `ps` with `p` appended unchanged as the final element;
the crossover operator is applied only within `ps`, never to `p`. -/
theorem recombine_odd_parent_passthrough (c : SinglePointCrossover)
    (ps : List MyIndividual) (p : MyIndividual) (h : ps.length % 2 = 0) :
    recombine c (ps ++ [p]) = (recombine c ps).map (fun os => os ++ [p]) :=
  recombine_append_single c ps p h

theorem recombine_odd_parent_passthrough_witness :
    recombine ⟨⟩ [⟨[1]⟩, ⟨[2]⟩, ⟨[3]⟩] =
      (recombine ⟨⟩ [⟨[1]⟩, ⟨[2]⟩]).map (fun os => os ++ [⟨[3]⟩]) :=
  recombine_odd_parent_passthrough ⟨⟩ [⟨[1]⟩, ⟨[2]⟩] ⟨[3]⟩ (by decide)

/-- C1 counterexample: the output of `evolve` is *not* a function of the
inputs and the explicitly passed rng alone.  With identical generations
count, identical passed rng, and identical initial population, two runs
that differ only in the state of the ambient `thread_rng()` (consumed by
`GaussianMutation::mutate` and `MyIndividual::mutate`) produce different
output populations. -/
theorem evolve_output_depends_on_thread_rng :
    ((GeneticAlgorithm.mk 1 ⟨1⟩ ⟨⟩ ⟨1, 1/10⟩).evolve 1 (rngConst 0) (rngConst 0)
        (some [⟨[0]⟩])).map Prod.fst ≠
      ((GeneticAlgorithm.mk 1 ⟨1⟩ ⟨⟩ ⟨1, 1/10⟩).evolve 1 (rngConst 0)
        (rngConst (2 ^ 31)) (some [⟨[0]⟩])).map Prod.fst := by
  decide

/-- C1 amended: the randomness of the reference mutation path never flows
through the explicitly passed rng — `GaussianMutation::mutate` produces the
same result for any two passed rng states, drawing only from the ambient
`thread_rng()`.  Determinism of `evolve` therefore holds only when the
ambient source state is fixed along with the passed rng. -/
theorem gaussianMutation_ignores_passed_rng (op : GaussianMutation)
    (ind : MyIndividual) (r1 r2 amb : Rng) :
    op.mutate ind r1 amb = op.mutate ind r2 amb := rfl

/-- C5 evaluation at the failing input: `TournamentSelection::select` on an
empty population (with matching empty fitness vector) silently succeeds and
returns an empty parent list — no explicit error is surfaced. -/
theorem select_empty_population_returns_empty :
    (TournamentSelection.select ⟨3⟩ ([] : List MyIndividual) []
        (rngConst 0)).map Prod.fst = some [] := rfl

/-- C8: the `mutation_strength` field of `GaussianMutation` never influences
the result of `mutate` — two operators agreeing on `mutation_rate` behave
identically for every individual, every passed rng, and every ambient
source state. -/
theorem mutation_strength_never_influences_mutation (rate s1 s2 : ℚ)
    (ind : MyIndividual) (r amb : Rng) :
    (GaussianMutation.mk rate s1).mutate ind r amb =
      (GaussianMutation.mk rate s2).mutate ind r amb := rfl

/-- C9 counterexample: with `initial_population = None`, no generation
capability, and `population_size = 0`, `evolve` does *not* fail — it
silently returns the empty population. -/
theorem evolve_size_zero_silently_returns_empty :
    (((GeneticAlgorithm.mk 0 ⟨3⟩ ⟨⟩ ⟨1/2, 1/10⟩).evolve 2 (rngConst 0)
        (rngConst 0) none)).map Prod.fst = some [] := rfl

/-- C9 amended: with `initial_population = None` and no individual-generation
capability, `evolve` fails at initialization (the `unimplemented!` panic of
`generate_individual`) whenever `population_size` is positive. -/
theorem evolve_missing_generator_fails (ga : GeneticAlgorithm) (g : Nat)
    (r amb : Rng) (h : 0 < ga.population_size) :
    ga.evolve g r amb none = none := by
  unfold GeneticAlgorithm.evolve
  rw [if_neg (Nat.pos_iff_ne_zero.mp h)]

theorem evolve_missing_generator_fails_witness :
    (GeneticAlgorithm.mk 1 ⟨2⟩ ⟨⟩ ⟨1/2, 1/10⟩).evolve 3 (rngConst 0)
      (rngConst 0) none = none :=
  evolve_missing_generator_fails _ 3 _ _ (by decide)

/-- C10: `evolve` with zero generations is the identity on the supplied
population — no fitness evaluation, selection, crossover or mutation runs,
neither random source is consumed, and the input population is returned
as-is regardless of its length. -/
theorem evolve_zero_generations_identity (ga : GeneticAlgorithm) (r amb : Rng)
    (pop : List MyIndividual) :
    ga.evolve 0 r amb (some pop) = some (pop, r, amb) := rfl

theorem genRange_pos {n : Nat} (h : 0 < n) (r : Rng) :
    genRange n r = some (r.next.1 % n, r.next.2) := by
  unfold genRange
  rw [if_neg (Nat.pos_iff_ne_zero.mp h)]

theorem drawTournament_spec : ∀ (ts n : Nat) (r : Rng), 0 < n →
    ∃ t r2, drawTournament ts n r = some (t, r2) ∧ t.length = ts ∧ ∀ i ∈ t, i < n
  | 0, _, r, _ => ⟨[], r, rfl, rfl, by simp⟩
  | ts + 1, n, r, h => by
    obtain ⟨t, r3, hdraw, hlen, hmem⟩ := drawTournament_spec ts n r.next.2 h
    refine ⟨r.next.1 % n :: t, r3, ?_, by simp [hlen], ?_⟩
    · simp only [drawTournament, genRange_pos h r, hdraw]
    · intro i hi
      rcases List.mem_cons.mp hi with rfl | hi2
      · exact Nat.mod_lt _ h
      · exact hmem i hi2

theorem maxByLastGo_total {fv : List (Option ℚ)} (key : Nat → ℚ) :
    ∀ (xs : List Nat) (acc : Nat) (ka : ℚ), fv.get? acc = some (some ka) →
      (∀ i ∈ xs, fv.get? i = some (some (key i))) →
      ∃ m, maxByLastGo (fvCmp fv) acc xs = some m ∧ (m = acc ∨ m ∈ xs)
  | [], acc, _, _, _ => ⟨acc, rfl, Or.inl rfl⟩
  | x :: xs, acc, ka, hacc, hxs => by
    have hx : fv.get? x = some (some (key x)) := hxs x (by simp)
    have htail : ∀ i ∈ xs, fv.get? i = some (some (key i)) :=
      fun i hi => hxs i (by simp [hi])
    rw [maxByLastGo, fvCmp_eq hacc hx]
    cases hc : cmpQ ka (key x) with
    | gt =>
      obtain ⟨m, hg, hm⟩ := maxByLastGo_total key xs acc ka hacc htail
      exact ⟨m, hg, hm.imp id (List.mem_cons_of_mem x)⟩
    | lt =>
      obtain ⟨m, hg, hm⟩ := maxByLastGo_total key xs x (key x) hx htail
      refine ⟨m, hg, Or.inr ?_⟩
      rcases hm with rfl | h2
      exacts [List.mem_cons_self m xs, List.mem_cons_of_mem x h2]
    | eq =>
      obtain ⟨m, hg, hm⟩ := maxByLastGo_total key xs x (key x) hx htail
      refine ⟨m, hg, Or.inr ?_⟩
      rcases hm with rfl | h2
      exacts [List.mem_cons_self m xs, List.mem_cons_of_mem x h2]

theorem maxByLast_total {fv : List (Option ℚ)} (key : Nat → ℚ) (t : List Nat)
    (htne : t ≠ []) (hcomp : ∀ i ∈ t, fv.get? i = some (some (key i))) :
    ∃ m, maxByLast (fvCmp fv) t = some m ∧ m ∈ t := by
  cases t with
  | nil => exact absurd rfl htne
  | cons a rest =>
    obtain ⟨m, hg, hm⟩ := maxByLastGo_total key rest a (key a)
      (hcomp a (by simp)) (fun i hi => hcomp i (by simp [hi]))
    refine ⟨m, hg, ?_⟩
    rcases hm with rfl | h2
    exacts [List.mem_cons_self m rest, List.mem_cons_of_mem a h2]

theorem selectLoop_spec {α : Type} (ts : Nat) (pop : List α) (fv : List (Option ℚ))
    (key : Nat → ℚ) (hts : 0 < ts) (hpop : 0 < pop.length)
    (hfv : ∀ i, i < pop.length → fv.get? i = some (some (key i))) :
    ∀ (k : Nat) (r : Rng), ∃ ps r2, selectLoop ts pop fv k r = some (ps, r2) ∧
      ps.length = k ∧ ∀ x ∈ ps, x ∈ pop
  | 0, r => ⟨[], r, rfl, rfl, by simp⟩
  | k + 1, r => by
    obtain ⟨t, r2, hdraw, htlen, htmem⟩ := drawTournament_spec ts pop.length r hpop
    have htne : t ≠ [] := by
      intro h
      rw [h] at htlen
      simp at htlen
      omega
    obtain ⟨idx, hmax, hidxmem⟩ := maxByLast_total key t htne
      (fun i hi => hfv i (htmem i hi))
    have hidx : idx < pop.length := htmem idx hidxmem
    obtain ⟨w, hw⟩ : ∃ w, pop.get? idx = some w :=
      ⟨pop.get ⟨idx, hidx⟩, List.get?_eq_get hidx⟩
    have hwmem : w ∈ pop := List.get?_mem hw
    obtain ⟨ps, r3, hrec, hlen, hmem⟩ := selectLoop_spec ts pop fv key hts hpop hfv k r2
    refine ⟨w :: ps, r3, ?_, by simp [hlen], ?_⟩
    · simp only [selectLoop, hdraw, hmax, hw, hrec]
    · intro x hx
      rcases List.mem_cons.mp hx with rfl | hx2
      exacts [hwmem, hmem x hx2]

theorem select_spec {α : Type} (st : TournamentSelection) (pop : List α)
    (fv : List (Option ℚ)) (key : Nat → ℚ) (r : Rng)
    (hts : 0 < st.tournament_size)
    (hfv : ∀ i, i < pop.length → fv.get? i = some (some (key i))) :
    ∃ ps r2, st.select pop fv r = some (ps, r2) ∧ ps.length = pop.length ∧
      ∀ x ∈ ps, x ∈ pop := by
  rcases Nat.eq_zero_or_pos pop.length with h | h
  · refine ⟨[], r, ?_, by simp [h], by simp⟩
    unfold TournamentSelection.select
    rw [h]
    rfl
  · exact selectLoop_spec st.tournament_size pop fv key hts h hfv pop.length r

theorem recombine_spec (c : SinglePointCrossover) (L : Nat) :
    ∀ ps : List MyIndividual, (∀ p ∈ ps, p.genes.length = L) →
      ∃ os, recombine c ps = some os ∧ os.length = ps.length ∧
        ∀ o ∈ os, o.genes.length = L
  | [], _ => ⟨[], rfl, rfl, by simp⟩
  | [p], h => ⟨[p], rfl, rfl, by simpa using h⟩
  | p1 :: p2 :: rest, h => by
    have h1 : p1.genes.length = L := h p1 (by simp)
    have h2 : p2.genes.length = L := h p2 (by simp)
    obtain ⟨os, hos, hlen, hmem⟩ :=
      recombine_spec c L rest (fun p hp => h p (by simp [hp]))
    refine ⟨⟨p1.genes.take (L / 2) ++ p2.genes.drop (L / 2)⟩ ::
            ⟨p2.genes.take (L / 2) ++ p1.genes.drop (L / 2)⟩ :: os, ?_,
            by simp [hlen], ?_⟩
    · simp only [recombine, crossover_spec c p1 p2 L h1 h2, hos]
      rfl
    · intro o ho
      rcases List.mem_cons.mp ho with rfl | ho2
      · exact crossover_child_length _ _ L h1 h2
      rcases List.mem_cons.mp ho2 with rfl | ho3
      · exact crossover_child_length _ _ L h2 h1
      · exact hmem o ho3

theorem mutate_genes_length (ind : MyIndividual) (amb : Rng) :
    ((ind.mutate amb).1).genes.length = ind.genes.length := by
  unfold MyIndividual.mutate
  cases h : genRange ind.genes.length amb with
  | none => rfl
  | some v =>
    obtain ⟨i, a1⟩ := v
    simp [List.length_set]

theorem gaussian_mutate_spec (op : GaussianMutation) (ind : MyIndividual)
    (r amb : Rng) (h0 : 0 ≤ op.mutation_rate) (h1 : op.mutation_rate ≤ 1) :
    ∃ ind2 amb2, op.mutate ind r amb = some (ind2, amb2) ∧
      ind2.genes.length = ind.genes.length := by
  unfold GaussianMutation.mutate genBool
  rw [if_pos ⟨h0, h1⟩]
  cases hb : decide (((amb.next.1 % 2 ^ 64 : Nat) : ℚ) <
      op.mutation_rate * 2 ^ 64) with
  | true =>
    exact ⟨(ind.mutate amb.next.2).1, (ind.mutate amb.next.2).2, rfl,
      mutate_genes_length ind amb.next.2⟩
  | false => exact ⟨ind, amb.next.2, rfl, rfl⟩

theorem mutateAll_spec (m : GaussianMutation) (r : Rng) (L : Nat)
    (h0 : 0 ≤ m.mutation_rate) (h1 : m.mutation_rate ≤ 1) :
    ∀ (l : List MyIndividual) (amb : Rng), (∀ x ∈ l, x.genes.length = L) →
      ∃ l2 amb2, mutateAll m r l amb = some (l2, amb2) ∧ l2.length = l.length ∧
        ∀ x ∈ l2, x.genes.length = L
  | [], amb, _ => ⟨[], amb, rfl, rfl, by simp⟩
  | ind :: rest, amb, h => by
    obtain ⟨ind2, amb2, hmut, hlen⟩ := gaussian_mutate_spec m ind r amb h0 h1
    obtain ⟨rest2, amb3, hrec, hrlen, hrmem⟩ :=
      mutateAll_spec m r L h0 h1 rest amb2 (fun x hx => h x (by simp [hx]))
    refine ⟨ind2 :: rest2, amb3, ?_, by simp [hrlen], ?_⟩
    · simp only [mutateAll, hmut, hrec]
    · intro x hx
      rcases List.mem_cons.mp hx with rfl | hx2
      · rw [hlen]
        exact h ind (by simp)
      · exact hrmem x hx2

theorem evolveLoop_spec (ga : GeneticAlgorithm) (L : Nat)
    (hts : 0 < ga.selection_strategy.tournament_size)
    (h0 : 0 ≤ ga.mutation_operator.mutation_rate)
    (h1 : ga.mutation_operator.mutation_rate ≤ 1) :
    ∀ (g : Nat) (pop : List MyIndividual) (r amb : Rng),
      (∀ x ∈ pop, x.genes.length = L) →
      ∃ out r2 amb2, evolveLoop ga g pop r amb = some (out, r2, amb2) ∧
        out.length = pop.length ∧ ∀ x ∈ out, x.genes.length = L
  | 0, pop, r, amb, hpop => ⟨pop, r, amb, rfl, rfl, hpop⟩
  | g + 1, pop, r, amb, hpop => by
    have hfv : ∀ i, i < pop.length →
        (pop.map (fun ind => some ind.fitness)).get? i =
          some (some (((pop.get? i).getD ⟨[]⟩).fitness)) := by
      intro i hi
      obtain ⟨x, hx⟩ : ∃ x, pop.get? i = some x :=
        ⟨pop.get ⟨i, hi⟩, List.get?_eq_get hi⟩
      rw [List.get?_map, hx]
      rfl
    obtain ⟨parents, r2, hsel, hplen, hpmem⟩ :=
      select_spec ga.selection_strategy pop (pop.map (fun ind => some ind.fitness))
        (fun i => ((pop.get? i).getD ⟨[]⟩).fitness) r hts hfv
    obtain ⟨offspring, hrecomb, holen, homem⟩ :=
      recombine_spec ga.crossover_operator L parents
        (fun p hp => hpop p (hpmem p hp))
    obtain ⟨pop2, amb2, hmutall, hmlen, hmmem⟩ :=
      mutateAll_spec ga.mutation_operator r2 L h0 h1 offspring amb homem
    obtain ⟨out, r3, amb3, hloop, hout, houtmem⟩ :=
      evolveLoop_spec ga L hts h0 h1 g pop2 r2 amb2 hmmem
    refine ⟨out, r3, amb3, ?_, by rw [hout, hmlen, holen, hplen], houtmem⟩
    simp only [evolveLoop, hsel, hrecomb, hmutall, hloop]

/-- C2: with the reference operators (tournament selection with a positive
tournament size, single-point crossover, gaussian mutation with a valid
probability), `evolve` on an initial population of length
`population_size` (uniform gene length) succeeds for every generations
count — even or odd population size alike — and every intermediate and
final population has length `population_size` (the statement quantifies
over all `g`, so the population entering each generation is covered). -/
theorem evolve_preserves_population_size (ga : GeneticAlgorithm) (g : Nat)
    (r amb : Rng) (pop : List MyIndividual) (L : Nat)
    (hts : 0 < ga.selection_strategy.tournament_size)
    (h0 : 0 ≤ ga.mutation_operator.mutation_rate)
    (h1 : ga.mutation_operator.mutation_rate ≤ 1)
    (hpop : ∀ x ∈ pop, x.genes.length = L)
    (hsize : pop.length = ga.population_size) :
    ∃ out r2 amb2, ga.evolve g r amb (some pop) = some (out, r2, amb2) ∧
      out.length = ga.population_size := by
  obtain ⟨out, r2, amb2, hrun, hlen, _⟩ :=
    evolveLoop_spec ga L hts h0 h1 g pop r amb hpop
  exact ⟨out, r2, amb2, hrun, by rw [hlen, hsize]⟩

theorem evolve_preserves_population_size_witness :
    ∃ out r2 amb2,
      (GeneticAlgorithm.mk 3 ⟨2⟩ ⟨⟩ ⟨1/2, 1/10⟩).evolve 1 (rngConst 0)
        (rngConst 0) (some [⟨[1, 2]⟩, ⟨[3, 4]⟩, ⟨[5, 6]⟩]) =
        some (out, r2, amb2) ∧ out.length = 3 :=
  evolve_preserves_population_size _ 1 _ _ _ 2 (by decide) (by decide)
    (by decide) (by decide) (by decide)
